import Mathlib

/-!
Verification development for the semantrix indexing-and-retrieval pipeline.

The definitions below are a shallow embedding of the Rust sources:
  src/subsystems/chunker.rs   (TextChunk, ChunkId, DocumentPointer, ChunkerSubsystem)
  src/subsystems/indexer.rs   (IndexerSubsystem, as_record_batch, schema)
  src/repositories/mod.rs     (delete_by_path)
  src/services/mod.rs         (SymbolInfo, SymbolRuleset, merge scan, symbol queries)
  src/services/mcp.rs         (McpService::code_reuse_search)
  src/lib.rs                  (load_config validation)

Rust usize fields are modelled as Nat (the code never relies on wrap-around;
where a subtraction appears the relevant no-underflow fact is proved).
External collaborators (the regex engine, glob matcher, embedder, LSP server,
vector store, templater) are modelled as explicit function-valued parameters
or fields, mirroring the spec's "interface-only" treatment of them.
-/

namespace Semantrix

/-- Decidable equality for Except, used to evaluate fallible results on
concrete inputs. -/
instance {ε α : Type} [DecidableEq ε] [DecidableEq α] : DecidableEq (Except ε α)
  | Except.error e, Except.error f =>
    if h : e = f then isTrue (by rw [h]) else isFalse (fun hc => by cases hc; exact h rfl)
  | Except.error _, Except.ok _ => isFalse (fun hc => by cases hc)
  | Except.ok _, Except.error _ => isFalse (fun hc => by cases hc)
  | Except.ok a, Except.ok b =>
    if h : a = b then isTrue (by rw [h]) else isFalse (fun hc => by cases hc; exact h rfl)

/-! ## Configuration (config.yml, search.semantic section; src/lib.rs) -/

/-- Semantic-search configuration slice used by the chunker and the indexer
(fields of CONFIG.search.semantic read in chunker.rs and indexer.rs). -/
structure SemanticConfig where
  chunk_size : Nat
  overlap_size : Nat
  batch_size : Nat
  search_limit : Nat
deriving Repr, DecidableEq

/-- Validation performed by load_config in src/lib.rs (lines 176-191):
chunk_size must be at least 1 and overlap_size at most chunk_size - 1. -/
def configValid (cfg : SemanticConfig) : Prop :=
  1 ≤ cfg.chunk_size ∧ cfg.overlap_size ≤ cfg.chunk_size - 1

instance (cfg : SemanticConfig) : Decidable (configValid cfg) := by
  unfold configValid
  infer_instance

/-! ## ChunkId (src/subsystems/chunker.rs, lines 176-231) -/

/-- ChunkId: path plus the line range of the chunk.  The Rust path field is
an Arc of PathBuf; modelled as the path string. -/
structure ChunkId where
  path : String
  start_line : Nat
  end_line : Nat
deriving Repr, DecidableEq

/-- Modelled from the spec: ChunkId::to_hash feeds the three fields through
std's DefaultHasher (SipHash-1-3), standard-library code that is not part of
this repository.  The spec fixes its contract: a stable string hash derived
from path, start_line and end_line and only these fields.  It is modelled
here as a stable encoding of exactly those three fields. -/
def ChunkId.to_hash (c : ChunkId) : String :=
  c.path ++ ":" ++ toString c.start_line ++ ":" ++ toString c.end_line

/-- Row of the vector table, as built by as_record_batch in
src/subsystems/indexer.rs (lines 136-184): columns id, path, start_line,
end_line, embedding.  The embedding column (a fixed-size float64 vector
produced by the external embedder) is modelled as an opaque list of
integers; no claim depends on its numeric contents. -/
structure ChunkRecord where
  id : String
  path : String
  start_line : Nat
  end_line : Nat
  embedding : List Int
deriving Repr, DecidableEq

/-- Deserialize for ChunkId (chunker.rs lines 183-215): read the row fields,
recompute the hash from path, start_line and end_line, and fail with an
integrity error when the stored id differs from the recomputed hash.
Extra row fields (the embedding) are ignored, as serde does. -/
def deserialize_chunk_id (row : ChunkRecord) : Except String ChunkId :=
  let chunk_id : ChunkId :=
    { path := row.path, start_line := row.start_line, end_line := row.end_line }
  let computed_hash := chunk_id.to_hash
  if row.id = computed_hash then
    Except.ok chunk_id
  else
    Except.error ("ChunkId hash mismatch: expected " ++ computed_hash ++ ", got " ++ row.id)

/-! ## TextChunk (src/subsystems/chunker.rs, lines 246-299) -/

/-- TextChunk: a window of consecutive lines of one file. -/
structure TextChunk where
  id : ChunkId
  path : String
  start_line : Nat
  end_line : Nat
  text : List String
deriving Repr, DecidableEq

/-- TextChunk::new: end_line is start_line + chunk_size and the id is built
from that same (uncropped) range; text starts empty. -/
def TextChunk.new (cfg : SemanticConfig) (path : String) (start_line : Nat) : TextChunk :=
  let end_line := start_line + cfg.chunk_size
  { id := { path := path, start_line := start_line, end_line := end_line }
    path := path
    start_line := start_line
    end_line := end_line
    text := [] }

/-- TextChunk::crop_last_chunk: shrink end_line to start_line + text length.
Note that the id field is left untouched, exactly as in the source. -/
def TextChunk.crop_last_chunk (c : TextChunk) : TextChunk :=
  { c with end_line := c.start_line + c.text.length }

/-- TextChunk::is_full. -/
def TextChunk.is_full (cfg : SemanticConfig) (c : TextChunk) : Bool :=
  c.text.length == cfg.chunk_size

/-- TextChunk::is_empty. -/
def TextChunk.is_empty (c : TextChunk) : Bool :=
  c.text.isEmpty

/-- TextChunk::push_line. -/
def TextChunk.push_line (c : TextChunk) (line : String) : TextChunk :=
  { c with text := c.text ++ [line] }

/-- TextChunk::next_chunk: successor starts at end_line - overlap_size and
is pre-seeded with the last overlap_size lines of the current text
(saturating_sub is Nat subtraction). -/
def TextChunk.next_chunk (cfg : SemanticConfig) (c : TextChunk) : TextChunk :=
  let base := TextChunk.new cfg c.path (c.end_line - cfg.overlap_size)
  { base with text := c.text.drop (c.text.length - cfg.overlap_size) }

/-! ## Chunker (src/subsystems/chunker.rs, lines 40-127) -/

/-- Loop body of ChunkerSubsystem::process_file (lines 49-77): push each line
into the current chunk, emit it when full and continue with next_chunk; at
end of input emit the cropped last chunk when non-empty, then the terminal
none marker.  The option layer mirrors the Option of TextChunk channel
messages, none being the end-of-file marker. -/
def chunkFileAux (cfg : SemanticConfig) : TextChunk → List String → List (Option TextChunk)
  | cur, [] =>
    (if cur.is_empty then [] else [some cur.crop_last_chunk]) ++ [none]
  | cur, line :: rest =>
    let cur' := cur.push_line line
    if cur'.is_full cfg then
      some cur' :: chunkFileAux cfg (cur'.next_chunk cfg) rest
    else
      chunkFileAux cfg cur' rest

/-- ChunkerSubsystem::process_file on the successfully read lines of a file:
start from a chunk with start_line 0. -/
def process_file (cfg : SemanticConfig) (path : String) (lines : List String) :
    List (Option TextChunk) :=
  chunkFileAux cfg (TextChunk.new cfg path 0) lines

/-- Chunks actually emitted for a file (the some messages, without the
terminal marker). -/
def fileChunks (cfg : SemanticConfig) (path : String) (lines : List String) :
    List TextChunk :=
  (process_file cfg path lines).filterMap id

/-! ## SQL LIKE matching and delete_by_path (src/repositories/mod.rs) -/

/-- SQL LIKE pattern matching: percent matches any sequence of characters,
underscore matches exactly one character, anything else matches itself.
Fuel-indexed so that the definition is structurally recursive (the fuel is
always sufficient at the wrapper below). -/
def sqlLikeFuel : Nat → List Char → List Char → Bool
  | 0, _, _ => false
  | _ + 1, [], t => t.isEmpty
  | fuel + 1, c :: ps, t =>
    if c = '%' then
      sqlLikeFuel fuel ps t ||
        (match t with
         | [] => false
         | _ :: ts => sqlLikeFuel fuel (c :: ps) ts)
    else if c = '_' then
      (match t with
       | [] => false
       | _ :: ts => sqlLikeFuel fuel ps ts)
    else
      (match t with
       | [] => false
       | c' :: ts => c == c' && sqlLikeFuel fuel ps ts)

/-- SQL LIKE on strings. -/
def sqlLike (pattern text : String) : Bool :=
  sqlLikeFuel (pattern.toList.length + text.toList.length + 1) pattern.toList text.toList

/-- A pattern fragment is wildcard-free when it contains neither percent nor
underscore. -/
def noWildcards (s : String) : Bool :=
  s.toList.all (fun c => !(c == '%' || c == '_'))

/-- The claim's reading of "path prefix": the directory path, followed by a
path separator, is a prefix of the row path (or the row path is the
directory itself).  This is the specification-side notion that
delete_by_path is compared against. -/
def isPathPrefixOf (dir p : String) : Bool :=
  p == dir || (dir ++ "/").toList.isPrefixOf p.toList

/-- delete_by_path (src/repositories/mod.rs lines 19-46): for a directory,
delete rows whose path column matches the SQL LIKE pattern dir followed by
percent, then optimize the index; for a file, delete rows whose path column
equals the path.  The table is the list of rows; the returned flag records
whether optimize_index ran.  The filesystem is_dir test is passed in as a
boolean. -/
def delete_by_path (table : List ChunkRecord) (path : String) (isDir : Bool) :
    List ChunkRecord × Bool :=
  if isDir then
    (table.filter (fun r => !(sqlLike (path ++ "%") r.path)), true)
  else
    (table.filter (fun r => !(r.path == path)), false)

/-! ## Indexer (src/subsystems/indexer.rs) -/

/-- One line of as_record_batch (lines 136-184): the persisted row takes its
id from the chunk's id field hashed, its path, start_line and end_line from
the chunk's own (possibly cropped) fields, and its embedding from the first
embedding the embedder produced for the chunk's text.  The embedder is the
external collaborator, passed as a function of the chunk text. -/
def toRecord (embed : List String → List Int) (c : TextChunk) : ChunkRecord :=
  { id := c.id.to_hash
    path := c.path
    start_line := c.start_line
    end_line := c.end_line
    embedding := embed c.text }

/-- Hash ids of the chunks of a flushed batch (indexer.rs lines 62-67). -/
def batchIds (batch : List TextChunk) : List String :=
  batch.map (fun c => c.id.to_hash)

/-- Flush trigger (indexer.rs lines 58-60): the batch reached batch_size, or
a none marker arrived while the batch is non-empty. -/
def flushCond (cfg : SemanticConfig) (batch : List TextChunk) (msg : Option TextChunk) : Bool :=
  batch.length == cfg.batch_size || (msg.isNone && !batch.isEmpty)

/-- One flush (indexer.rs lines 61-95): delete rows whose id is among the
batch ids, then append one record per batched chunk. -/
def flushBatch (embed : List String → List Int)
    (batch : List TextChunk) (table : List ChunkRecord) : List ChunkRecord :=
  table.filter (fun r => !((batchIds batch).contains r.id)) ++ batch.map (toRecord embed)

/-- Receive loop of IndexerSubsystem::run (lines 50-113) on a finite message
list: push some-chunks into the batch, flush when the trigger fires.  State
is the pending batch and the table. -/
def index_run (cfg : SemanticConfig) (embed : List String → List Int) :
    List (Option TextChunk) → List TextChunk → List ChunkRecord →
    List TextChunk × List ChunkRecord
  | [], batch, table => (batch, table)
  | msg :: rest, batch, table =>
    let batch' := match msg with
      | some c => batch ++ [c]
      | none => batch
    if flushCond cfg batch' msg then
      index_run cfg embed rest [] (flushBatch embed batch' table)
    else
      index_run cfg embed rest batch' table

/-- Net effect of the chunker plus the indexer on one Create or Modify event
for a single file (chunker.rs lines 106-110 then the indexer loop): first
delete_by_path for the file, then chunk it and run the indexer over the
produced messages with an empty pending batch.  Returns the resulting
table. -/
def processFileEvent (cfg : SemanticConfig) (embed : List String → List Int)
    (table : List ChunkRecord) (path : String) (lines : List String) : List ChunkRecord :=
  (index_run cfg embed (process_file cfg path lines) [] (delete_by_path table path false).1).2

/-! ## Chunker run loop and per-file I/O errors (chunker.rs lines 40-127) -/

/-- One next_line result: a line, or a read-time I/O error. -/
inductive ReadResult where
  | line : String → ReadResult
  | ioError : ReadResult
deriving Repr, DecidableEq

/-- What the filesystem yields for one file: File::open may fail, otherwise
reading yields a sequence of next_line results, each either a line or an
I/O error. -/
inductive FileData where
  | openError : FileData
  | content : List ReadResult → FileData
deriving Repr, DecidableEq

/-- Loop at chunker.rs line 50: reader.next_line().await.ok().flatten()
turns the first read error into a plain end of input, so reading collects
the successful lines up to the first error. -/
def readLines : List ReadResult → List String
  | [] => []
  | ReadResult.line l :: rest => l :: readLines rest
  | ReadResult.ioError :: _ => []

/-- Event kind of a PathEvent (watcher.rs). -/
inductive EventKind where
  | create | modify | remove | other
deriving Repr, DecidableEq

/-- A PathEvent together with what the filesystem would answer for its path
at processing time: whether the path is a directory, and the file data when
it is a file. -/
structure PathEventM where
  path : String
  kind : EventKind
  isDir : Bool
  file : FileData
deriving Repr, DecidableEq

/-- ChunkerSubsystem::process_file including its fallible prologue (lines
40-50): a File::open failure is returned as an error (the question-mark
operator); otherwise the read lines are chunked. -/
def process_file_io (cfg : SemanticConfig) (path : String) (fd : FileData) :
    Except Unit (List (Option TextChunk)) :=
  match fd with
  | FileData.openError => Except.error ()
  | FileData.content rows => Except.ok (process_file cfg path (readLines rows))

/-- Receive loop of ChunkerSubsystem::run (lines 94-127) on a finite event
list, restricted to file paths (the directory walk re-enters process_file
per walked file and adds nothing to the error behaviour).  Remove events
delete by path; Create and Modify events delete by path and then chunk the
file, and a process_file error propagates out of the loop through the
question-mark operator, abandoning all remaining events.  Returns the final
table and the concatenated channel messages. -/
def chunker_run (cfg : SemanticConfig) :
    List PathEventM → List ChunkRecord →
    Except Unit (List ChunkRecord × List (Option TextChunk))
  | [], table => Except.ok (table, [])
  | e :: rest, table =>
    if e.kind = EventKind.remove then
      chunker_run cfg rest (delete_by_path table e.path e.isDir).1
    else if e.kind = EventKind.create ∨ e.kind = EventKind.modify then
      let table' := (delete_by_path table e.path e.isDir).1
      if e.isDir then
        chunker_run cfg rest table'
      else
        match process_file_io cfg e.path e.file with
        | Except.error err => Except.error err
        | Except.ok msgs =>
          match chunker_run cfg rest table' with
          | Except.error err => Except.error err
          | Except.ok (t, ms) => Except.ok (t, msgs ++ ms)
    else
      chunker_run cfg rest table

/-! ## LSP data model and the merge (src/services/mod.rs, chunker.rs 142-174) -/

/-- LSP position (lsp_types::Position). -/
structure Position where
  line : Nat
  character : Nat
deriving Repr, DecidableEq

/-- LSP range; stop is the range's end field. -/
structure Range where
  start : Position
  stop : Position
deriving Repr, DecidableEq

/-- LSP location: uri plus range.  The uri is modelled as its string. -/
structure Location where
  uri : String
  range : Range
deriving Repr, DecidableEq

/-- SymbolInfo (services/mod.rs lines 37-46). -/
structure SymbolInfo where
  name : String
  kind : String
  location : Location
  container_name : Option String
  code : Option String
  hover : Option String
  name_position : Option Position
deriving Repr, DecidableEq

/-- Url::to_file_path, modelled: a file scheme uri maps to its path part,
anything else fails. -/
def uriToFilePath (uri : String) : Option String :=
  if ("file://".toList).isPrefixOf uri.toList then
    some (String.mk (uri.toList.drop 7))
  else
    none

/-- DocumentPointer (chunker.rs lines 142-146). -/
inductive DocumentPointer where
  | chunk : ChunkId → DocumentPointer
  | symbol : SymbolInfo → DocumentPointer
deriving Repr, DecidableEq

/-- Ord for DocumentPointer (chunker.rs lines 154-174): all four cases
compare start lines. -/
def DocumentPointer.cmp : DocumentPointer → DocumentPointer → Ordering
  | DocumentPointer.chunk l, DocumentPointer.chunk r => compare l.start_line r.start_line
  | DocumentPointer.symbol l, DocumentPointer.symbol r =>
    compare l.location.range.start.line r.location.range.start.line
  | DocumentPointer.chunk l, DocumentPointer.symbol r =>
    compare l.start_line r.location.range.start.line
  | DocumentPointer.symbol l, DocumentPointer.chunk r =>
    compare l.location.range.start.line r.start_line

/-- Start line of a pointer (the quantity every cmp case compares). -/
def DocumentPointer.startLine : DocumentPointer → Nat
  | DocumentPointer.chunk c => c.start_line
  | DocumentPointer.symbol s => s.location.range.start.line

/-- Boolean order used for sorting: not greater, the order of
itertools::sorted over Ord. -/
def dpLe (a b : DocumentPointer) : Bool :=
  !(DocumentPointer.cmp a b == Ordering.gt)

/-- One file's group in get_semantic_symbols (services/mod.rs lines
373-390 and 408-413): the group collects the file's chunk pointers followed
by its symbol pointers (the chunks-then-symbols chain order), then sorts by
start line; itertools sorted is a stable sort over the derived Ord, modelled
by a stable insertion sort over the not-greater relation. -/
def mergeGroup (chunks : List ChunkId) (symbols : List SymbolInfo) : List DocumentPointer :=
  ((chunks.map DocumentPointer.chunk) ++ (symbols.map DocumentPointer.symbol)).insertionSort
    (fun a b => dpLe a b = true)

/-- Single-pass scan of get_semantic_symbols (services/mod.rs lines
414-434): a chunk sets the seen flag and emits nothing; a symbol is emitted
when the flag is set, which also resets the flag. -/
def mergeScan : Bool → List DocumentPointer → List SymbolInfo
  | _, [] => []
  | _, DocumentPointer.chunk _ :: rest => mergeScan true rest
  | seen, DocumentPointer.symbol s :: rest =>
    if seen then s :: mergeScan false rest else mergeScan seen rest

/-- Position-instrumented variant of mergeScan: identical traversal, but
each emitted symbol is paired with its position in the scanned list. -/
def scanIdx : Bool → Nat → List DocumentPointer → List (Nat × SymbolInfo)
  | _, _, [] => []
  | _, i, DocumentPointer.chunk _ :: rest => scanIdx true (i + 1) rest
  | seen, i, DocumentPointer.symbol s :: rest =>
    if seen then (i, s) :: scanIdx false (i + 1) rest else scanIdx seen (i + 1) rest

/-- Position i of the scanned list is emitted by the merge scan. -/
def emittedAt (l : List DocumentPointer) (i : Nat) : Prop :=
  i ∈ (scanIdx false 0 l).map Prod.fst

instance (l : List DocumentPointer) (i : Nat) : Decidable (emittedAt l i) := by
  unfold emittedAt
  infer_instance

/-! ## SymbolRuleset (src/services/mod.rs, lines 80-159) -/

/-- A compiled regex set: the pattern strings together with the compiled
matcher, the external regex engine being interface-only.  Equality of
rulesets in the source compares the pattern strings. -/
structure RegexSetM where
  patterns : List String
  is_match : String → Bool

/-- A compiled glob: pattern string plus matcher over the path string. -/
structure GlobM where
  pattern : String
  is_match : String → Bool

/-- SymbolRuleset (services/mod.rs lines 80-92); the path globs are carried
in compiled form (the source compiles them inside matches and fails on a
bad pattern, a case outside these claims). -/
structure SymbolRuleset where
  kind : RegexSetM
  name : RegexSetM
  path : List GlobM
  code : RegexSetM
  rules : List String

/-- SymbolInfo::path (services/mod.rs lines 49-54): convert the location uri
to a file path, failing for a non-file uri. -/
def SymbolInfo.filePath (s : SymbolInfo) : Except String String :=
  match uriToFilePath s.location.uri with
  | some p => Except.ok p
  | none => Except.error ("Failed to convert URL " ++ s.location.uri ++ " to path")

/-- SymbolRuleset::matches (services/mod.rs lines 123-159): the conjunction
of the kind regex set, the name regex set, any path glob, and the code regex
set applied to the symbol's code, a missing code defaulting to false. -/
def SymbolRuleset.matches (r : SymbolRuleset) (s : SymbolInfo) : Except String Bool :=
  match s.filePath with
  | Except.error e => Except.error e
  | Except.ok path =>
    Except.ok
      (r.kind.is_match s.kind &&
        r.name.is_match s.name &&
        r.path.any (fun g => g.is_match path) &&
        (s.code.map (fun code => r.code.is_match code)).getD false)

/-- Ruleset (services/mod.rs lines 74-78). -/
structure Ruleset where
  common : List String
  depends_on : List SymbolRuleset

/-- Ruleset::get_rules (services/mod.rs lines 162-193): group the symbols
matched by each dependent ruleset, render that ruleset's templates over the
group through the external templater, and append the rendered strings to
common.  Rendering is the templater collaborator, a function of the
template string and the matched symbols. -/
def Ruleset.get_rules (render : String → List SymbolInfo → Except String String)
    (rs : Ruleset) (symbols : List SymbolInfo) : Except String (List String) :=
  let step : SymbolRuleset → Except String (List String) := fun rule => do
    let matched ← symbols.foldlM
      (fun acc s => do
        let m ← rule.matches s
        pure (if m then acc ++ [s] else acc))
      []
    if matched.isEmpty then
      pure []
    else
      rule.rules.mapM (fun t => render t matched)
  do
    let rendered ← rs.depends_on.mapM step
    pure (rs.common ++ rendered.flatten)

/-! ## Retriever (src/services/mcp.rs lines 286-310, src/services/mod.rs) -/

/-- Environment the retriever talks to: the guarded LSP request functions
and the vector store, each fallible.  Responses carry flat symbol lists;
the payload of a vector hit is a table row to be deserialized as a
ChunkId. -/
structure RetrieverEnv where
  workspace_symbol : String → Except Unit (Option (List SymbolInfo))
  document_symbol : String → Except Unit (Option (List SymbolInfo))
  top_n : String → Except Unit (List ChunkRecord)

/-- Call log: the queries actually sent to each collaborator, in order. -/
structure CallLog where
  workspaceSymbolCalls : List String
  documentSymbolCalls : List String
  topNCalls : List String
deriving Repr, DecidableEq

/-- The empty call log. -/
def CallLog.empty : CallLog :=
  { workspaceSymbolCalls := [], documentSymbolCalls := [], topNCalls := [] }

/-- get_workspace_symbols (services/mod.rs lines 691-722): an empty name
list sends exactly one empty-string query (dropping an error or null
response); a non-empty list sends one query per name, dropping failed and
null responses, with no fallback call.  Returns the collected responses and
the queries sent. -/
def get_workspace_symbols (env : RetrieverEnv) (names : List String) :
    List (List SymbolInfo) × List String :=
  if names.isEmpty then
    match env.workspace_symbol "" with
    | Except.ok (some r) => ([r], [""])
    | Except.ok none => ([], [""])
    | Except.error _ => ([], [""])
  else
    (names.filterMap (fun q =>
        match env.workspace_symbol q with
        | Except.ok (some r) => some r
        | Except.ok none => none
        | Except.error _ => none),
      names)

/-- get_fuzzy_symbols (services/mod.rs lines 205-308), reduced to the
workspace-symbol fan-out: the returned symbols are the flattened responses
(post-enrichment touches code and hover fields only and issues no further
workspace-symbol calls). -/
def get_fuzzy_symbols (env : RetrieverEnv) (names : List String) :
    List SymbolInfo × CallLog :=
  ((get_workspace_symbols env names).1.flatten,
    { workspaceSymbolCalls := (get_workspace_symbols env names).2
      documentSymbolCalls := []
      topNCalls := [] })

/-- Unique file paths of a chunk list, in first-occurrence order
(services/mod.rs lines 358-364 collect them into a set). -/
def chunkPaths (chunks : List ChunkId) : List String :=
  (chunks.map (fun c => c.path)).dedup

/-- get_semantic_symbols (services/mod.rs lines 312-447): one top_n call per
query (none for an empty query list), failed calls dropped; each hit's
payload deserialized as a ChunkId, integrity failures dropped; one
document_symbol call per distinct chunk path; then the per-file sorted
merge scan.  Returns the emitted symbols and the call log. -/
def get_semantic_symbols (env : RetrieverEnv) (queries : List String) :
    List SymbolInfo × CallLog :=
  let hits : List ChunkRecord :=
    (queries.filterMap (fun q =>
        match env.top_n q with
        | Except.ok rows => some rows
        | Except.error _ => none)).flatten
  let chunks : List ChunkId :=
    hits.filterMap (fun row =>
      match deserialize_chunk_id row with
      | Except.ok c => some c
      | Except.error _ => none)
  let paths := chunkPaths chunks
  let documents : List SymbolInfo :=
    (paths.filterMap (fun p =>
        match env.document_symbol p with
        | Except.ok (some syms) => some syms
        | Except.ok none => none
        | Except.error _ => none)).flatten
  let emitted : List SymbolInfo :=
    (paths.map (fun p =>
        mergeScan false
          (mergeGroup
            (chunks.filter (fun c => c.path == p))
            (documents.filter (fun s => uriToFilePath s.location.uri == some p))))).flatten
  (emitted,
    { workspaceSymbolCalls := [], documentSymbolCalls := paths, topNCalls := queries })

/-- Result payload of a tool call (rmcp CallToolResult): content blocks and
the error flag.  CallToolResult::error sets the flag, a soft error inside a
successful JSON-RPC response. -/
structure CallToolResult where
  isError : Bool
  content : List String
deriving Repr, DecidableEq

/-- State McpService::code_reuse_search reads (mcp.rs): the watch cell with
the guarded LSP handle (here: the whole retriever environment), the
first_index_scan readiness flag, the rules file as read and parsed at call
time, and the templater. -/
structure McpState where
  lsp_server : Option RetrieverEnv
  first_index_scan : Bool
  rules : Except String Ruleset
  render : String → List SymbolInfo → Except String String

/-- McpService::code_reuse_search (src/services/mcp.rs lines 286-...):
guard on the LSP watch cell, then on first_index_scan, answering a soft
error without touching any collaborator; then run the fuzzy and the
semantic branches, load the rules, evaluate them over both symbol lists and
answer the four blocks.  A rules or template failure is a transport-level
internal error.  The call log records every collaborator query issued. -/
def code_reuse_search (st : McpState) (semantic_queries name_patterns : List String) :
    Except String CallToolResult × CallLog :=
  match st.lsp_server with
  | none =>
    (Except.ok { isError := true, content := ["Waiting for LSP server to be initialized"] },
      CallLog.empty)
  | some env =>
    if !st.first_index_scan then
      (Except.ok { isError := true, content := ["Waiting for index to be initialized"] },
        CallLog.empty)
    else
      let fuzzy := get_fuzzy_symbols env name_patterns
      let semantic := get_semantic_symbols env semantic_queries
      let log : CallLog :=
        { workspaceSymbolCalls :=
            fuzzy.2.workspaceSymbolCalls ++ semantic.2.workspaceSymbolCalls
          documentSymbolCalls :=
            fuzzy.2.documentSymbolCalls ++ semantic.2.documentSymbolCalls
          topNCalls := fuzzy.2.topNCalls ++ semantic.2.topNCalls }
      let result : Except String CallToolResult :=
        match st.rules with
        | Except.error e => Except.error ("Failed to open or parse rules file: " ++ e)
        | Except.ok rules =>
          match rules.get_rules st.render semantic.1,
              rules.get_rules st.render fuzzy.1 with
          | Except.error e, _ => Except.error ("Failed to get semantic rules: " ++ e)
          | _, Except.error e => Except.error ("Failed to get fuzzy rules: " ++ e)
          | Except.ok semantic_rules, Except.ok fuzzy_rules =>
            Except.ok { isError := false, content := semantic_rules ++ fuzzy_rules }
      (result, log)

/-! ## Closed form of the indexer loop

The three functions below read off, from the message list and the pending
batch alone, which row ids the indexer loop deletes, which records it
appends, and the final pending batch; the closed-form lemma proved later
identifies index_run with them.  They mirror the recursion of index_run. -/

/-- Ids deleted over the whole run of index_run. -/
def idxDel (cfg : SemanticConfig) : List (Option TextChunk) → List TextChunk → List String
  | [], _ => []
  | msg :: rest, batch =>
    let batch' := match msg with
      | some c => batch ++ [c]
      | none => batch
    if flushCond cfg batch' msg then
      batchIds batch' ++ idxDel cfg rest []
    else
      idxDel cfg rest batch'

/-- Records appended over the whole run of index_run, after the deletions
of the later flushes have been applied to them. -/
def idxApp (cfg : SemanticConfig) (embed : List String → List Int) :
    List (Option TextChunk) → List TextChunk → List ChunkRecord
  | [], _ => []
  | msg :: rest, batch =>
    let batch' := match msg with
      | some c => batch ++ [c]
      | none => batch
    if flushCond cfg batch' msg then
      (batch'.map (toRecord embed)).filter
          (fun r => !((idxDel cfg rest []).contains r.id)) ++
        idxApp cfg embed rest []
    else
      idxApp cfg embed rest batch'

/-- Final pending batch of index_run. -/
def idxFinal (cfg : SemanticConfig) : List (Option TextChunk) → List TextChunk → List TextChunk
  | [], batch => batch
  | msg :: rest, batch =>
    let batch' := match msg with
      | some c => batch ++ [c]
      | none => batch
    if flushCond cfg batch' msg then
      idxFinal cfg rest []
    else
      idxFinal cfg rest batch'

/-! ## Concrete fixtures used by counterexamples and witnesses -/

/-- Configuration with chunk_size 2, overlap_size 0. -/
def cfgEx2 : SemanticConfig :=
  { chunk_size := 2, overlap_size := 0, batch_size := 8, search_limit := 5 }

/-- Configuration with chunk_size 3, overlap_size 1. -/
def cfgEx31 : SemanticConfig :=
  { chunk_size := 3, overlap_size := 1, batch_size := 2, search_limit := 5 }

/-- A fixed embedder for concrete runs. -/
def embedEx : List String → List Int := fun _ => [0]

/-- The terminal row the indexer persists for the three-line file under
cfgEx2: line range 2 to 3, id hashed from the uncropped range 2 to 4. -/
def termRowEx : ChunkRecord :=
  { id := "f.txt:2:4", path := "f.txt", start_line := 2, end_line := 3, embedding := [0] }

/-- A table row for a file inside the directory axb. -/
def axbRowEx : ChunkRecord :=
  { id := "r1", path := "axb/f.rs", start_line := 0, end_line := 2, embedding := [] }

/-- A chunk hit at start line 40 of the file /f.rs. -/
def exChunk40 : ChunkId :=
  { path := "/f.rs", start_line := 40, end_line := 100 }

/-- A document symbol of /f.rs whose range starts at the given line. -/
def exSym (n : Nat) : SymbolInfo :=
  { name := "s" ++ toString n
    kind := "Function"
    location :=
      { uri := "file:///f.rs"
        range :=
          { start := { line := n, character := 0 }
            stop := { line := n + 1, character := 0 } } }
    container_name := none
    code := none
    hover := none
    name_position := none }

/-- A Create event for a file whose open fails. -/
def badEventEx : PathEventM :=
  { path := "/a.txt", kind := EventKind.create, isDir := false, file := FileData.openError }

/-- A Create event for a readable one-line file. -/
def goodEventEx : PathEventM :=
  { path := "/b.txt", kind := EventKind.create, isDir := false
    file := FileData.content [ReadResult.line "x"] }

/-- A retriever environment whose collaborators answer trivially. -/
def envEx : RetrieverEnv :=
  { workspace_symbol := fun _ => Except.ok none
    document_symbol := fun _ => Except.ok none
    top_n := fun _ => Except.ok [] }

/-- Call-time state with an empty LSP watch cell. -/
def stNoLspEx : McpState :=
  { lsp_server := none
    first_index_scan := false
    rules := Except.error "unread"
    render := fun _ _ => Except.ok "" }

/-- Call-time state with an LSP session but first_index_scan still false. -/
def stNoIndexEx : McpState :=
  { lsp_server := some envEx
    first_index_scan := false
    rules := Except.error "unread"
    render := fun _ _ => Except.ok "" }

/-- Call-time state past both readiness gates. -/
def stReadyEx : McpState :=
  { lsp_server := some envEx
    first_index_scan := true
    rules := Except.ok { common := [], depends_on := [] }
    render := fun _ _ => Except.ok "" }

/-- A concrete ruleset: Function kinds, any name, any path under a glob that
accepts everything, code containing fn. -/
def rulesetEx : SymbolRuleset :=
  { kind := { patterns := ["Function"], is_match := fun s => s == "Function" }
    name := { patterns := [".*"], is_match := fun _ => true }
    path := [{ pattern := "**/*.rs", is_match := fun p => p == "/f.rs" }]
    code := { patterns := ["fn "], is_match := fun s => s == "fn main" }
    rules := ["use fns"] }

/-- A symbol with a code sample, for the ruleset fixture. -/
def symWithCodeEx : SymbolInfo :=
  { exSym 50 with code := some "fn main" }

/-- A full chunk under cfgEx31 (three lines, chunk_size 3). -/
def cFullEx : TextChunk :=
  { id := { path := "w.txt", start_line := 0, end_line := 3 }
    path := "w.txt"
    start_line := 0
    end_line := 3
    text := ["a", "b", "c"] }

/-! # Theorems -/

/-! ## SQL LIKE and delete_by_path (claims about deletion locality) -/

/-- A lone percent pattern accepts every text, given enough fuel. -/
theorem sqlLikeFuel_star (t : List Char) :
    ∀ fuel, t.length + 1 < fuel → sqlLikeFuel fuel ['%'] t = true := by
  induction t with
  | nil =>
    intro fuel h
    obtain ⟨f, rfl⟩ : ∃ f, fuel = f + 2 := ⟨fuel - 2, by omega⟩
    simp [sqlLikeFuel]
  | cons x ts ih =>
    intro fuel h
    obtain ⟨f, rfl⟩ : ∃ f, fuel = f + 1 := ⟨fuel - 1, by omega⟩
    have := ih f (by simpa using Nat.lt_of_succ_lt_succ h)
    simp [sqlLikeFuel, this]

/-- For a wildcard-free fragment p, the pattern p followed by percent is
string-prefix matching. -/
theorem sqlLikeFuel_prefix (p : List Char) :
    ∀ fuel t, (∀ c ∈ p, c ≠ '%' ∧ c ≠ '_') → p.length + t.length + 1 < fuel →
      sqlLikeFuel fuel (p ++ ['%']) t = p.isPrefixOf t := by
  induction p with
  | nil =>
    intro fuel t _ h
    have hlen : t.length + 1 < fuel := by
      simp only [List.length_nil] at h
      omega
    have hs : sqlLikeFuel fuel ['%'] t = true := sqlLikeFuel_star t fuel hlen
    simpa [List.isPrefixOf] using hs
  | cons c ps ih =>
    intro fuel t hw h
    obtain ⟨f, rfl⟩ : ∃ f, fuel = f + 1 := ⟨fuel - 1, by omega⟩
    obtain ⟨hc1, hc2⟩ := hw c (List.mem_cons_self c ps)
    cases t with
    | nil => simp [sqlLikeFuel, hc1, hc2, List.isPrefixOf]
    | cons c' ts =>
      have hlen : ps.length + ts.length + 1 < f := by
        simp only [List.length_cons] at h
        omega
      have hrec := ih f ts (fun x hx => hw x (List.mem_cons_of_mem c hx)) hlen
      simp [sqlLikeFuel, hc1, hc2, List.isPrefixOf, hrec]

/-- The LIKE pattern delete_by_path builds for a wildcard-free directory
path is exactly string-prefix matching on the path column. -/
theorem sqlLike_prefix_of_noWildcards (path t : String) (hw : noWildcards path = true) :
    sqlLike (path ++ "%") t = path.toList.isPrefixOf t.toList := by
  have hlist : (path ++ "%").toList = path.toList ++ ['%'] := by
    show (path ++ "%").data = path.data ++ ['%']
    rw [String.data_append]
  have hw' : ∀ c ∈ path.toList, c ≠ '%' ∧ c ≠ '_' := by
    intro c hc
    have hall := (List.all_eq_true.mp hw) c hc
    simpa using hall
  unfold sqlLike
  rw [hlist]
  exact sqlLikeFuel_prefix path.toList _ t.toList hw'
    (by simp only [List.length_append, List.length_cons, List.length_nil]; omega)

/-- Claim C6 (amended): a file removal deletes exactly the rows whose path
column equals the removed path; a directory removal deletes exactly the
rows whose path column matches the SQL LIKE pattern of the directory path
followed by percent, which for a wildcard-free directory path is
string-prefix matching (so sibling paths sharing the character prefix are
also deleted, and percent or underscore in the directory path act as
wildcards); the index is optimized exactly in the directory case. -/
theorem claim_C6_delete_by_path (table : List ChunkRecord) (path : String)
    (isDir : Bool) (r : ChunkRecord) (t : String) :
    (r ∈ (delete_by_path table path false).1 ↔ r ∈ table ∧ r.path ≠ path) ∧
    (r ∈ (delete_by_path table path true).1 ↔
      r ∈ table ∧ sqlLike (path ++ "%") r.path = false) ∧
    (delete_by_path table path isDir).2 = isDir ∧
    (noWildcards path = true →
      sqlLike (path ++ "%") t = path.toList.isPrefixOf t.toList) := by
  refine ⟨?_, ?_, ?_, fun hw => sqlLike_prefix_of_noWildcards path t hw⟩
  · simp [delete_by_path, List.mem_filter]
  · simp [delete_by_path, List.mem_filter]
  · cases isDir <;> rfl

/-- Claim C6, counterexample to the original wording: removing directory
a underscore b deletes the row for the path axb/f.rs, although a_b is not a
path prefix of it (not even a string prefix) — the SQL underscore wildcard
matches the x. -/
theorem claim_C6_counterexample :
    (delete_by_path [axbRowEx] "a_b" true).1 = [] ∧
    isPathPrefixOf "a_b" "axb/f.rs" = false ∧
    ("a_b".toList.isPrefixOf "axb/f.rs".toList) = false := by
  decide

/-! ## Claim C1: the terminal cropped chunk row and ChunkId integrity -/

/-- Claim C1 (code bug): running the chunker and indexer over the
three-line file a b c with chunk_size 2 and overlap 0 persists a terminal
row whose line range is 2 to 3 but whose id is the hash of the uncropped
range 2 to 4 — crop_last_chunk shrinks end_line without refreshing the id
field, so the stored id differs from the hash recomputed from the row's own
path, start_line and end_line, and deserializing the row back into a
ChunkId fails with the integrity error instead of succeeding. -/
theorem claim_C1_terminal_row_integrity :
    processFileEvent cfgEx2 embedEx [] "f.txt" ["a", "b", "c"] =
      [{ id := "f.txt:0:2", path := "f.txt", start_line := 0, end_line := 2,
         embedding := [0] },
       termRowEx] ∧
    termRowEx.id =
      ChunkId.to_hash { path := "f.txt", start_line := 2, end_line := 4 } ∧
    termRowEx.id ≠
      ChunkId.to_hash
        { path := termRowEx.path, start_line := termRowEx.start_line,
          end_line := termRowEx.end_line } ∧
    deserialize_chunk_id termRowEx =
      Except.error "ChunkId hash mismatch: expected f.txt:2:3, got f.txt:2:4" := by
  decide

/-! ## Claim C4: per-file I/O errors in the chunker -/

/-- Claim C4 (amended): a File::open failure on a single file aborts the
whole chunker loop — the error propagates out of run and no later event is
processed; an I/O error while reading lines is, by contrast, silently
swallowed: the lines read so far are chunked as if the file ended there and
the loop continues with the remaining events. -/
theorem claim_C4_open_error_fatal (cfg : SemanticConfig) (e : PathEventM)
    (rest : List PathEventM) (table : List ChunkRecord)
    (hk : e.kind = EventKind.create ∨ e.kind = EventKind.modify)
    (hd : e.isDir = false) :
    (e.file = FileData.openError →
      chunker_run cfg (e :: rest) table = Except.error ()) ∧
    (∀ rows, e.file = FileData.content rows →
      chunker_run cfg (e :: rest) table =
        match chunker_run cfg rest (delete_by_path table e.path false).1 with
        | Except.error err => Except.error err
        | Except.ok p =>
          Except.ok (p.1, process_file cfg e.path (readLines rows) ++ p.2)) ∧
    (∀ pre post,
      readLines (pre.map ReadResult.line ++ ReadResult.ioError :: post) = pre) := by
  have hkr : ¬(e.kind = EventKind.remove) := by
    rcases hk with h | h <;> rw [h] <;> intro hco <;> cases hco
  refine ⟨?_, ?_, ?_⟩
  · intro hopen
    simp [chunker_run, hkr, hk, hd, hopen, process_file_io]
  · intro rows hrows
    simp only [chunker_run, hkr, hk, hd, hrows, process_file_io]
    simp only [if_neg hkr, if_pos hk, hd, Bool.false_eq_true, if_false]
    cases chunker_run cfg rest (delete_by_path table e.path false).1 with
    | error err => rfl
    | ok p => cases p; rfl
  · intro pre post
    induction pre with
    | nil => simp [readLines]
    | cons x xs ih => simp [readLines, ih]

/-- Claim C4, witness of the amended theorem at a concrete open failure and
a concrete read error. -/
theorem claim_C4_witness :
    chunker_run cfgEx2 [badEventEx] [] = Except.error () ∧
    readLines [ReadResult.line "x", ReadResult.ioError, ReadResult.line "y"] = ["x"] := by
  have h := claim_C4_open_error_fatal cfgEx2 badEventEx [] [] (Or.inl rfl) rfl
  refine ⟨h.1 rfl, ?_⟩
  simpa using h.2.2 ["x"] [ReadResult.line "y"]

/-- Claim C4, counterexample to the original wording: with an unreadable
file event followed by a readable one, the chunker loop stops with the
error and never processes the second event, although alone the second
event processes fine. -/
theorem claim_C4_counterexample :
    chunker_run cfgEx2 [badEventEx, goodEventEx] [] = Except.error () ∧
    chunker_run cfgEx2 [goodEventEx] [] =
      Except.ok ([], process_file cfgEx2 "/b.txt" ["x"]) := by
  decide

/-! ## Claim C5: readiness guards of code_reuse_search -/

/-- Claim C5: with an empty LSP watch cell code_reuse_search answers the
waiting-for-LSP soft error, and with an LSP session but first_index_scan
still false it answers the waiting-for-index soft error; in both cases the
result is a successful tool response carrying the error flag (not a
transport error) and the call log is empty — no LSP request and no
vector-store query is issued. -/
theorem claim_C5_readiness_guards (st : McpState) (queries patterns : List String)
    (env : RetrieverEnv) :
    (st.lsp_server = none →
      code_reuse_search st queries patterns =
        (Except.ok
          { isError := true,
            content := ["Waiting for LSP server to be initialized"] },
          CallLog.empty)) ∧
    (st.lsp_server = some env → st.first_index_scan = false →
      code_reuse_search st queries patterns =
        (Except.ok
          { isError := true,
            content := ["Waiting for index to be initialized"] },
          CallLog.empty)) := by
  constructor
  · intro h
    simp [code_reuse_search, h]
  · intro h hscan
    simp [code_reuse_search, h, hscan]

/-- Claim C5, witness at the two concrete unready states. -/
theorem claim_C5_witness :
    code_reuse_search stNoLspEx ["q"] ["p"] =
      (Except.ok
        { isError := true, content := ["Waiting for LSP server to be initialized"] },
        CallLog.empty) ∧
    code_reuse_search stNoIndexEx ["q"] ["p"] =
      (Except.ok
        { isError := true, content := ["Waiting for index to be initialized"] },
        CallLog.empty) :=
  ⟨(claim_C5_readiness_guards stNoLspEx ["q"] ["p"] envEx).1 rfl,
    (claim_C5_readiness_guards stNoIndexEx ["q"] ["p"] envEx).2 rfl rfl⟩

/-! ## Claim C9: fan-out counts of the two branches -/

/-- Claim C9: past both readiness gates, an empty name-pattern list sends
exactly one workspace-symbol query, the empty string, and a non-empty list
sends exactly one query per pattern with no empty-string fallback; the
vector store receives exactly one top_n query per semantic query, hence
none when the semantic query list is empty. -/
theorem claim_C9_fanout (st : McpState) (env : RetrieverEnv)
    (queries patterns : List String)
    (h1 : st.lsp_server = some env) (h2 : st.first_index_scan = true) :
    (code_reuse_search st queries patterns).2.workspaceSymbolCalls =
      (if patterns.isEmpty then [""] else patterns) ∧
    (code_reuse_search st queries patterns).2.topNCalls = queries := by
  have hws : (get_workspace_symbols env patterns).2 =
      (if patterns.isEmpty then [""] else patterns) := by
    by_cases hp : patterns.isEmpty
    · simp only [get_workspace_symbols, hp, if_true]
      cases hq : env.workspace_symbol "" with
      | error e => simp
      | ok o => cases o <;> simp
    · simp [get_workspace_symbols, hp]
  constructor
  · simp only [code_reuse_search, h1, h2, Bool.not_true, Bool.false_eq_true, if_false,
      get_fuzzy_symbols, get_semantic_symbols]
    simpa using hws
  · simp only [code_reuse_search, h1, h2, Bool.not_true, Bool.false_eq_true, if_false,
      get_fuzzy_symbols, get_semantic_symbols]
    simp

/-- Claim C9, witness: with both gates passed, empty patterns yield the one
empty-string workspace query and empty semantic queries yield no top_n
call. -/
theorem claim_C9_witness :
    (code_reuse_search stReadyEx [] []).2.workspaceSymbolCalls = [""] ∧
    (code_reuse_search stReadyEx [] []).2.topNCalls = [] := by
  have h := claim_C9_fanout stReadyEx envEx [] [] rfl rfl
  simpa using h

/-! ## Claim C8: the four-way conjunction of SymbolRuleset::matches -/

/-- Claim C8: when the symbol's uri converts to a file path, the ruleset
matches exactly when the kind regex set matches the kind, the name regex
set matches the name, at least one path glob matches the file path, and the
code regex set matches the symbol's code; a symbol without code never
matches (the match evaluates to false). -/
theorem claim_C8_ruleset_matches (r : SymbolRuleset) (s : SymbolInfo) (p : String)
    (hp : uriToFilePath s.location.uri = some p) :
    (r.matches s = Except.ok true ↔
      (r.kind.is_match s.kind = true ∧ r.name.is_match s.name = true ∧
        (∃ g ∈ r.path, g.is_match p = true) ∧
        (∃ c, s.code = some c ∧ r.code.is_match c = true))) ∧
    (s.code = none → r.matches s = Except.ok false) := by
  have hfp : s.filePath = Except.ok p := by
    simp [SymbolInfo.filePath, hp]
  constructor
  · simp only [SymbolRuleset.matches, hfp]
    constructor
    · intro h
      have hb := Except.ok.inj h
      simp only [Bool.and_eq_true, List.any_eq_true] at hb
      obtain ⟨⟨⟨hk, hn⟩, hg⟩, hc⟩ := hb
      cases hcode : s.code with
      | none => rw [hcode] at hc; simp at hc
      | some c =>
        rw [hcode] at hc
        simp at hc
        exact ⟨hk, hn, hg, c, rfl, hc⟩
    · rintro ⟨hk, hn, ⟨g, hg, hgm⟩, c, hc, hcm⟩
      simp [hk, hn, hc, hcm, List.any_eq_true]
      exact ⟨g, hg, hgm⟩
  · intro hcode
    simp [SymbolRuleset.matches, hfp, hcode]

/-! ## The chunker loop: coverage, starts, lengths (claims C2 and C10) -/

/-- Master lemma about the per-file chunking loop, by induction over the
remaining lines with the current chunk generalized.  The hypotheses are the
loop invariants: the current chunk is not yet full, its end_line is
start_line plus chunk_size, its text is the slice of the file it claims,
and the remaining lines are the rest of the file.  The conclusions cover
the emitted chunks: their start lines form the arithmetic progression of
step chunk_size minus overlap_size, every non-terminal chunk holds exactly
chunk_size lines, the last chunk holds between one and chunk_sizelines,
something is emitted unless nothing remains, and every remaining file line
is covered by some emitted chunk with the file's own content. -/
theorem chunkFileAux_spec (cfg : SemanticConfig) (file : List String)
    (hC : 1 ≤ cfg.chunk_size) (hO : cfg.overlap_size ≤ cfg.chunk_size - 1) :
    ∀ (lines : List String) (cur : TextChunk),
      cur.text.length < cfg.chunk_size →
      cur.end_line = cur.start_line + cfg.chunk_size →
      cur.text = (file.drop cur.start_line).take cur.text.length →
      lines = file.drop (cur.start_line + cur.text.length) →
      (∀ k c, ((chunkFileAux cfg cur lines).filterMap id)[k]? = some c →
          c.start_line = cur.start_line + k * (cfg.chunk_size - cfg.overlap_size)) ∧
      (∀ k c, ((chunkFileAux cfg cur lines).filterMap id)[k]? = some c →
          k + 1 < ((chunkFileAux cfg cur lines).filterMap id).length →
          c.text.length = cfg.chunk_size) ∧
      (∀ c, ((chunkFileAux cfg cur lines).filterMap id).getLast? = some c →
          1 ≤ c.text.length ∧ c.text.length ≤ cfg.chunk_size) ∧
      ((lines ≠ [] ∨ cur.text ≠ []) → (chunkFileAux cfg cur lines).filterMap id ≠ []) ∧
      (∀ i, cur.start_line ≤ i → i < file.length →
        ∃ (k : Nat) (c : TextChunk),
          ((chunkFileAux cfg cur lines).filterMap id)[k]? = some c ∧
          c.start_line ≤ i ∧ i < c.start_line + c.text.length ∧
          c.text[i - c.start_line]? = file[i]?) := by
  intro lines
  induction lines with
  | nil =>
    intro cur hlen hend htext hpos
    have hflen : file.length ≤ cur.start_line + cur.text.length :=
      List.drop_eq_nil_iff.mp hpos.symm
    by_cases hemp : cur.text = []
    · have hfl : (chunkFileAux cfg cur []).filterMap id = [] := by
        simp [chunkFileAux, TextChunk.is_empty, hemp]
      simp only [hfl]
      refine ⟨?_, ?_, ?_, ?_, ?_⟩
      · intro k c h; simp at h
      · intro k c h; simp at h
      · intro c h; simp at h
      · intro hne
        rcases hne with h | h
        · exact absurd rfl h
        · exact absurd hemp h
      · intro i hi hilen
        rw [hemp] at hflen
        simp at hflen
        omega
    · have hfl : (chunkFileAux cfg cur []).filterMap id = [cur.crop_last_chunk] := by
        simp [chunkFileAux, TextChunk.is_empty, List.isEmpty_iff, hemp]
      have hcrop_start : cur.crop_last_chunk.start_line = cur.start_line := rfl
      have hcrop_text : cur.crop_last_chunk.text = cur.text := rfl
      have hpos0 : 0 < cur.text.length := List.length_pos.mpr hemp
      simp only [hfl]
      refine ⟨?_, ?_, ?_, ?_, ?_⟩
      · intro k c h
        cases k with
        | zero =>
          simp at h
          subst h
          simp [hcrop_start]
        | succ k => simp at h
      · intro k c h hk
        simp at hk
      · intro c h
        simp at h
        subst h
        exact ⟨by rw [hcrop_text]; omega, by rw [hcrop_text]; omega⟩
      · intro _; simp
      · intro i hi hilen
        have hlt : i - cur.start_line < cur.text.length := by omega
        refine ⟨0, cur.crop_last_chunk, by simp, hi, by
          rw [hcrop_start, hcrop_text]; omega, ?_⟩
        show cur.text[i - cur.start_line]? = file[i]?
        rw [htext, List.getElem?_take, if_pos hlt, List.getElem?_drop,
          Nat.add_sub_cancel' hi]
  | cons l rest ih =>
    intro cur hlen hend htext hpos
    have hgetn : file[cur.start_line + cur.text.length]? = some l := by
      have h0 : (file.drop (cur.start_line + cur.text.length))[0]? = some l := by
        rw [← hpos]; simp
      rwa [List.getElem?_drop, Nat.add_zero] at h0
    have hrest : rest = file.drop (cur.start_line + cur.text.length + 1) := by
      have h1 : (file.drop (cur.start_line + cur.text.length)).drop 1 = rest := by
        rw [← hpos]; simp
      rw [List.drop_drop] at h1
      exact h1.symm
    have hnlt : cur.start_line + cur.text.length < file.length := by
      by_contra hcon
      have h2 : file.drop (cur.start_line + cur.text.length) = [] :=
        List.drop_eq_nil_iff.mpr (by omega)
      rw [← hpos] at h2
      simp at h2
    have hpstart : (cur.push_line l).start_line = cur.start_line := rfl
    have hlen' : (cur.push_line l).text.length = cur.text.length + 1 := by
      simp [TextChunk.push_line]
    have htext' : (cur.push_line l).text =
        (file.drop cur.start_line).take (cur.text.length + 1) := by
      have hexp : (file.drop cur.start_line).take (cur.text.length + 1)
          = (file.drop cur.start_line).take cur.text.length ++
            ((file.drop cur.start_line)[cur.text.length]?).toList := List.take_succ
      rw [hexp, List.getElem?_drop, hgetn, ← htext]
      simp [TextChunk.push_line]
    by_cases hfull : (cur.push_line l).text.length = cfg.chunk_size
    · have hif : (cur.push_line l).is_full cfg = true := by
        simp [TextChunk.is_full, hfull]
      have hout : (chunkFileAux cfg cur (l :: rest)).filterMap id
          = (cur.push_line l) ::
            (chunkFileAux cfg ((cur.push_line l).next_chunk cfg) rest).filterMap id := by
        simp [chunkFileAux, hif]
      have hOC : cfg.overlap_size < cfg.chunk_size := by omega
      have hnstart0 : ((cur.push_line l).next_chunk cfg).start_line
          = cur.end_line - cfg.overlap_size := rfl
      have hnstart : ((cur.push_line l).next_chunk cfg).start_line
          = cur.start_line + (cfg.chunk_size - cfg.overlap_size) := by
        rw [hnstart0, hend]; omega
      have hnend : ((cur.push_line l).next_chunk cfg).end_line
          = ((cur.push_line l).next_chunk cfg).start_line + cfg.chunk_size := rfl
      have hntext : ((cur.push_line l).next_chunk cfg).text
          = (cur.push_line l).text.drop (cfg.chunk_size - cfg.overlap_size) := by
        have h3 : ((cur.push_line l).next_chunk cfg).text
            = (cur.push_line l).text.drop
              ((cur.push_line l).text.length - cfg.overlap_size) := rfl
        rw [h3, hfull]
      have hnlen : ((cur.push_line l).next_chunk cfg).text.length = cfg.overlap_size := by
        rw [hntext, List.length_drop, hfull]; omega
      have hpt : (cur.push_line l).text = (file.drop cur.start_line).take cfg.chunk_size := by
        rw [htext']
        rw [show cur.text.length + 1 = cfg.chunk_size from by rw [← hlen']; exact hfull]
      have hntext2 : ((cur.push_line l).next_chunk cfg).text
          = (file.drop ((cur.push_line l).next_chunk cfg).start_line).take
            ((cur.push_line l).next_chunk cfg).text.length := by
        rw [hnstart, hnlen, hntext, hpt, List.drop_take, List.drop_drop]
        congr 1
        omega
      have hnpos : rest = file.drop (((cur.push_line l).next_chunk cfg).start_line +
          ((cur.push_line l).next_chunk cfg).text.length) := by
        rw [hnstart, hnlen, hrest]
        congr 1
        have h4 : cur.text.length + 1 = cfg.chunk_size := by rw [← hlen']; exact hfull
        omega
      obtain ⟨ihs, ihf, ihl, ihne, ihcov⟩ :=
        ih ((cur.push_line l).next_chunk cfg) (by rw [hnlen]; omega) hnend hntext2 hnpos
      simp only [hout]
      refine ⟨?_, ?_, ?_, ?_, ?_⟩
      · intro k c hkc
        cases k with
        | zero =>
          simp at hkc
          subst hkc
          simp [hpstart]
        | succ k =>
          have hkc' : ((chunkFileAux cfg ((cur.push_line l).next_chunk cfg)
              rest).filterMap id)[k]? = some c := by simpa using hkc
          have h5 := ihs k c hkc'
          rw [hnstart] at h5
          have h6 : (k + 1) * (cfg.chunk_size - cfg.overlap_size)
              = k * (cfg.chunk_size - cfg.overlap_size) +
                (cfg.chunk_size - cfg.overlap_size) := Nat.succ_mul _ _
          omega
      · intro k c hkc hklt
        cases k with
        | zero =>
          simp at hkc
          subst hkc
          exact hfull
        | succ k =>
          have hkc' : ((chunkFileAux cfg ((cur.push_line l).next_chunk cfg)
              rest).filterMap id)[k]? = some c := by simpa using hkc
          refine ihf k c hkc' ?_
          simp only [List.length_cons] at hklt
          omega
      · intro c hc
        cases houtnil : (chunkFileAux cfg ((cur.push_line l).next_chunk cfg)
            rest).filterMap id with
        | nil =>
          rw [houtnil] at hc
          simp at hc
          subst hc
          exact ⟨by omega, le_of_eq hfull⟩
        | cons x xs =>
          rw [houtnil, List.getLast?_cons_cons] at hc
          refine ihl c ?_
          rw [houtnil]
          exact hc
      · intro _; simp
      · intro i hi hilen
        by_cases hic : i < cur.start_line + cfg.chunk_size
        · refine ⟨0, cur.push_line l, by simp, hi, ?_, ?_⟩
          · rw [hpstart, hfull]; omega
          · show (cur.push_line l).text[i - cur.start_line]? = file[i]?
            rw [hpt, List.getElem?_take, if_pos (by omega), List.getElem?_drop,
              Nat.add_sub_cancel' hi]
        · have hige : ((cur.push_line l).next_chunk cfg).start_line ≤ i := by
            rw [hnstart]; omega
          obtain ⟨k, c, hkc, hc1, hc2, hc3⟩ := ihcov i hige hilen
          exact ⟨k + 1, c, by simpa using hkc, hc1, hc2, hc3⟩
    · have hif : (cur.push_line l).is_full cfg = false := by
        simp [TextChunk.is_full, hfull]
      have hout : (chunkFileAux cfg cur (l :: rest)).filterMap id
          = (chunkFileAux cfg (cur.push_line l) rest).filterMap id := by
        simp [chunkFileAux, hif]
      have hlen'' : (cur.push_line l).text.length < cfg.chunk_size := by
        rw [hlen']; omega
      have hend' : (cur.push_line l).end_line
          = (cur.push_line l).start_line + cfg.chunk_size := hend
      have hpos' : rest = file.drop ((cur.push_line l).start_line +
          (cur.push_line l).text.length) := by
        rw [hpstart, hlen', hrest]
        congr 1
      have htext'' : (cur.push_line l).text =
          (file.drop (cur.push_line l).start_line).take (cur.push_line l).text.length := by
        rw [hpstart, hlen']
        exact htext'
      obtain ⟨ihs, ihf, ihl, ihne, ihcov⟩ := ih (cur.push_line l) hlen'' hend' htext'' hpos'
      simp only [hout]
      refine ⟨?_, ?_, ?_, ?_, ?_⟩
      · intro k c h
        have h7 := ihs k c h
        rwa [hpstart] at h7
      · exact ihf
      · exact ihl
      · intro _
        refine ihne (Or.inr ?_)
        simp [TextChunk.push_line]
      · intro i hi hilen
        exact ihcov i (by rwa [hpstart]) hilen

/-- Claim C2: for a non-empty file under a valid configuration, the emitted
chunks start at 0, chunk_size minus overlap_size, twice that, and so on;
every non-terminal chunk holds exactly chunk_size lines; the terminal chunk
holds between 1 and chunk_size lines; and together the chunks cover every
line of the file with its own content. -/
theorem claim_C2_chunk_coverage (cfg : SemanticConfig) (path : String)
    (lines : List String)
    (hC : 1 ≤ cfg.chunk_size) (hO : cfg.overlap_size ≤ cfg.chunk_size - 1)
    (hne : lines ≠ []) :
    (∀ k c, (fileChunks cfg path lines)[k]? = some c →
        c.start_line = k * (cfg.chunk_size - cfg.overlap_size)) ∧
    (∀ k c, (fileChunks cfg path lines)[k]? = some c →
        k + 1 < (fileChunks cfg path lines).length →
        c.text.length = cfg.chunk_size) ∧
    (fileChunks cfg path lines ≠ [] ∧
      ∀ c, (fileChunks cfg path lines).getLast? = some c →
        1 ≤ c.text.length ∧ c.text.length ≤ cfg.chunk_size) ∧
    (∀ i, i < lines.length →
      ∃ (k : Nat) (c : TextChunk), (fileChunks cfg path lines)[k]? = some c ∧
        c.start_line ≤ i ∧ i < c.start_line + c.text.length ∧
        c.text[i - c.start_line]? = lines[i]?) := by
  have hnew_len : (TextChunk.new cfg path 0).text.length = 0 := rfl
  obtain ⟨hs, hf, hl, hne', hcov⟩ :=
    chunkFileAux_spec cfg lines hC hO lines (TextChunk.new cfg path 0)
      (by rw [hnew_len]; omega) rfl rfl (by simp [TextChunk.new])
  refine ⟨?_, ?_, ⟨?_, ?_⟩, ?_⟩
  · intro k c h
    have := hs k c h
    simpa [TextChunk.new] using this
  · exact hf
  · exact hne' (Or.inl hne)
  · exact hl
  · intro i hilen
    exact hcov i (by simp [TextChunk.new]) hilen

/-- Claim C2, witness: for the four-line file under chunk_size 3 and
overlap 1, line 3 is covered by an emitted chunk carrying its content. -/
theorem claim_C2_witness :
    ∃ (k : Nat) (c : TextChunk),
      (fileChunks cfgEx31 "w.txt" ["a", "b", "c", "d"])[k]? = some c ∧
      c.start_line ≤ 3 ∧ 3 < c.start_line + c.text.length ∧
      c.text[3 - c.start_line]? = some "d" := by
  have h := claim_C2_chunk_coverage cfgEx31 "w.txt" ["a", "b", "c", "d"]
    (by decide) (by decide) (by decide)
  have hc := h.2.2.2 3 (by decide)
  simpa using hc

/-- Claim C10: under a valid configuration, next_chunk (invoked only on a
full chunk, whose end_line is start_line plus chunk_size) computes its
successor's start line as end_line minus overlap_size with no underflow
(overlap_size never exceeds end_line, so the Nat subtraction is exact), and
the start lines of consecutive emitted chunks of one file strictly
increase. -/
theorem claim_C10_next_chunk_monotone (cfg : SemanticConfig) (path : String)
    (lines : List String) (c : TextChunk)
    (hC : 1 ≤ cfg.chunk_size) (hO : cfg.overlap_size ≤ cfg.chunk_size - 1)
    (hend : c.end_line = c.start_line + cfg.chunk_size) :
    (cfg.overlap_size ≤ c.end_line ∧
      (c.next_chunk cfg).start_line = c.end_line - cfg.overlap_size ∧
      c.start_line < (c.next_chunk cfg).start_line) ∧
    (∀ k c₁ c₂, (fileChunks cfg path lines)[k]? = some c₁ →
        (fileChunks cfg path lines)[k + 1]? = some c₂ →
        c₁.start_line < c₂.start_line) := by
  constructor
  · refine ⟨by omega, rfl, ?_⟩
    have h1 : (c.next_chunk cfg).start_line = c.end_line - cfg.overlap_size := rfl
    rw [h1, hend]
    omega
  · intro k c₁ c₂ h1 h2
    have hnew_len : (TextChunk.new cfg path 0).text.length = 0 := rfl
    obtain ⟨hs, _, _, _, _⟩ :=
      chunkFileAux_spec cfg lines hC hO lines (TextChunk.new cfg path 0)
        (by rw [hnew_len]; omega) rfl rfl (by simp [TextChunk.new])
    have e1 := hs k c₁ h1
    have e2 := hs (k + 1) c₂ h2
    simp only [TextChunk.new] at e1 e2
    have h6 : (k + 1) * (cfg.chunk_size - cfg.overlap_size)
        = k * (cfg.chunk_size - cfg.overlap_size) +
          (cfg.chunk_size - cfg.overlap_size) := Nat.succ_mul _ _
    omega

/-- Claim C10, witness at a concrete full chunk and a concrete file. -/
theorem claim_C10_witness :
    cfgEx31.overlap_size ≤ cFullEx.end_line ∧
    (cFullEx.next_chunk cfgEx31).start_line =
      cFullEx.end_line - cfgEx31.overlap_size ∧
    cFullEx.start_line < (cFullEx.next_chunk cfgEx31).start_line :=
  (claim_C10_next_chunk_monotone cfgEx31 "w.txt" ["a", "b", "c", "d"] cFullEx
    (by decide) (by decide) (by decide)).1

/-! ## The semantic merge scan (claim C3) -/

/-- Every case of the derived Ord on DocumentPointer compares start
lines. -/
theorem cmp_eq_compare (a b : DocumentPointer) :
    DocumentPointer.cmp a b = compare a.startLine b.startLine := by
  cases a <;> cases b <;> rfl

/-- The sorting order is the ordinary order on start lines. -/
theorem dpLe_iff (a b : DocumentPointer) :
    dpLe a b = true ↔ a.startLine ≤ b.startLine := by
  unfold dpLe
  rw [cmp_eq_compare]
  cases hc : compare a.startLine b.startLine with
  | lt =>
    have hlt := Nat.compare_eq_lt.mp hc
    exact ⟨fun _ => by omega, fun _ => rfl⟩
  | eq =>
    have heq := Nat.compare_eq_eq.mp hc
    exact ⟨fun _ => by omega, fun _ => rfl⟩
  | gt =>
    have hgt := Nat.compare_eq_gt.mp hc
    constructor
    · intro h
      exact absurd h (by decide)
    · intro h
      exfalso
      omega

/-- Unfolding equations for the scan, stated once so the Bool tests reduce
cleanly. -/
theorem scanIdx_cons_chunk (b : Bool) (n : Nat) (c : ChunkId)
    (rest : List DocumentPointer) :
    scanIdx b n (DocumentPointer.chunk c :: rest) = scanIdx true (n + 1) rest := rfl

/-- Scan unfolding: a symbol under a set flag is emitted and resets it. -/
theorem scanIdx_cons_symbol_true (n : Nat) (s : SymbolInfo)
    (rest : List DocumentPointer) :
    scanIdx true n (DocumentPointer.symbol s :: rest)
      = (n, s) :: scanIdx false (n + 1) rest := rfl

/-- Scan unfolding: a symbol under a clear flag is skipped. -/
theorem scanIdx_cons_symbol_false (n : Nat) (s : SymbolInfo)
    (rest : List DocumentPointer) :
    scanIdx false n (DocumentPointer.symbol s :: rest)
      = scanIdx false (n + 1) rest := rfl

/-- Unfolding equations for the faithful scan. -/
theorem mergeScan_cons_chunk (b : Bool) (c : ChunkId)
    (rest : List DocumentPointer) :
    mergeScan b (DocumentPointer.chunk c :: rest) = mergeScan true rest := rfl

/-- Merge-scan unfolding: a symbol under a set flag is emitted. -/
theorem mergeScan_cons_symbol_true (s : SymbolInfo) (rest : List DocumentPointer) :
    mergeScan true (DocumentPointer.symbol s :: rest)
      = s :: mergeScan false rest := rfl

/-- Merge-scan unfolding: a symbol under a clear flag is skipped. -/
theorem mergeScan_cons_symbol_false (s : SymbolInfo) (rest : List DocumentPointer) :
    mergeScan false (DocumentPointer.symbol s :: rest)
      = mergeScan false rest := rfl

/-- The merged group is sorted by start line. -/
theorem mergeGroup_pairwise (chunks : List ChunkId) (symbols : List SymbolInfo) :
    (mergeGroup chunks symbols).Pairwise (fun a b => dpLe a b = true) := by
  haveI : IsTrans DocumentPointer (fun a b => dpLe a b = true) := by
    refine ⟨fun a b c hab hbc => ?_⟩
    rw [dpLe_iff] at *
    omega
  haveI : IsTotal DocumentPointer (fun a b => dpLe a b = true) := by
    refine ⟨fun a b => ?_⟩
    rcases Nat.le_total a.startLine b.startLine with h | h
    · exact Or.inl ((dpLe_iff a b).mpr h)
    · exact Or.inr ((dpLe_iff b a).mpr h)
  exact List.sorted_insertionSort (fun a b => dpLe a b = true) _

/-- Positional monotonicity of start lines in the merged group. -/
theorem mergeGroup_le_of_lt (chunks : List ChunkId) (symbols : List SymbolInfo)
    (j i : Nat) (a b : DocumentPointer)
    (hj : (mergeGroup chunks symbols)[j]? = some a)
    (hi : (mergeGroup chunks symbols)[i]? = some b)
    (hji : j < i) : a.startLine ≤ b.startLine := by
  have hp := (List.pairwise_iff_get).mp (mergeGroup_pairwise chunks symbols)
  obtain ⟨hjl, hja⟩ := List.getElem?_eq_some.mp hj
  obtain ⟨hil, hib⟩ := List.getElem?_eq_some.mp hi
  have h := hp ⟨j, hjl⟩ ⟨i, hil⟩ hji
  rw [List.get_eq_getElem, List.get_eq_getElem] at h
  simp only [hja, hib] at h
  exact (dpLe_iff a b).mp h

/-- The scan emits exactly the positions holding a symbol whose immediate
predecessor position (or the incoming flag, at position zero) is a chunk:
membership characterization of scanIdx, with the running offset n. -/
theorem scanIdx_mem (i : Nat) : ∀ (l : List DocumentPointer) (b : Bool) (n : Nat),
    (i ∈ (scanIdx b n l).map Prod.fst) ↔
      (∃ j, i = n + j ∧ (∃ s, l[j]? = some (DocumentPointer.symbol s)) ∧
        ((j = 0 ∧ b = true) ∨
          (1 ≤ j ∧ ∃ c, l[j - 1]? = some (DocumentPointer.chunk c)))) := by
  intro l
  induction l with
  | nil =>
    intro b n
    simp [scanIdx]
  | cons x rest ihl =>
    intro b n
    cases x with
    | chunk ch =>
      rw [scanIdx_cons_chunk, ihl true (n + 1)]
      constructor
      · rintro ⟨j', hij, ⟨s, hs⟩, hdisj⟩
        refine ⟨j' + 1, by omega, ⟨s, by simpa using hs⟩, Or.inr ⟨by omega, ?_⟩⟩
        rcases hdisj with ⟨hj0, _⟩ | ⟨hj1, c, hc⟩
        · subst hj0
          exact ⟨ch, by simp⟩
        · refine ⟨c, ?_⟩
          have hj' : j' + 1 - 1 = j' := by omega
          rw [hj']
          cases j' with
          | zero => omega
          | succ m =>
            have hm : m + 1 - 1 = m := by omega
            rw [hm] at hc
            simpa using hc
      · rintro ⟨j, hij, ⟨s, hs⟩, hdisj⟩
        cases j with
        | zero =>
          exfalso
          simp at hs
        | succ j' =>
          refine ⟨j', by omega, ⟨s, by simpa using hs⟩, ?_⟩
          rcases hdisj with ⟨hj0, _⟩ | ⟨_, c, hc⟩
          · omega
          · cases j' with
            | zero =>
              refine Or.inl ⟨rfl, ?_⟩
              trivial
            | succ m =>
              refine Or.inr ⟨by omega, c, ?_⟩
              have hm : m + 1 + 1 - 1 = m + 1 := by omega
              rw [hm] at hc
              have hm2 : m + 1 - 1 = m := by omega
              rw [hm2]
              simpa using hc
    | symbol s0 =>
      cases b with
      | true =>
        rw [scanIdx_cons_symbol_true]
        simp only [List.map_cons, List.mem_cons]
        rw [ihl false (n + 1)]
        constructor
        · rintro (hin | ⟨j', hij, ⟨s, hs⟩, hdisj⟩)
          · exact ⟨0, by simpa using hin, ⟨s0, by simp⟩, Or.inl ⟨rfl, by trivial⟩⟩
          · rcases hdisj with ⟨_, hfalse⟩ | ⟨hj1, c, hc⟩
            · cases hfalse
            · cases j' with
              | zero => omega
              | succ m =>
                refine ⟨m + 2, by omega, ⟨s, by simpa using hs⟩,
                  Or.inr ⟨by omega, c, ?_⟩⟩
                have hm : m + 1 - 1 = m := by omega
                rw [hm] at hc
                have hm2 : m + 2 - 1 = m + 1 := by omega
                rw [hm2]
                simpa using hc
        · rintro ⟨j, hij, ⟨s, hs⟩, hdisj⟩
          cases j with
          | zero => exact Or.inl (by omega)
          | succ j' =>
            rcases hdisj with ⟨hj0, _⟩ | ⟨_, c, hc⟩
            · omega
            · cases j' with
              | zero =>
                exfalso
                simp at hc
              | succ m =>
                refine Or.inr ⟨m + 1, by omega, ⟨s, by simpa using hs⟩,
                  Or.inr ⟨by omega, c, ?_⟩⟩
                have hm : m + 1 + 1 - 1 = m + 1 := by omega
                rw [hm] at hc
                have hm2 : m + 1 - 1 = m := by omega
                rw [hm2]
                simpa using hc
      | false =>
        rw [scanIdx_cons_symbol_false, ihl false (n + 1)]
        constructor
        · rintro ⟨j', hij, ⟨s, hs⟩, hdisj⟩
          rcases hdisj with ⟨_, hfalse⟩ | ⟨hj1, c, hc⟩
          · cases hfalse
          · cases j' with
            | zero => omega
            | succ m =>
              refine ⟨m + 2, by omega, ⟨s, by simpa using hs⟩,
                Or.inr ⟨by omega, c, ?_⟩⟩
              have hm : m + 1 - 1 = m := by omega
              rw [hm] at hc
              have hm2 : m + 2 - 1 = m + 1 := by omega
              rw [hm2]
              simpa using hc
        · rintro ⟨j, hij, ⟨s, hs⟩, hdisj⟩
          cases j with
          | zero =>
            rcases hdisj with ⟨_, hfalse⟩ | ⟨hj1, _⟩
            · cases hfalse
            · omega
          | succ j' =>
            rcases hdisj with ⟨hj0, _⟩ | ⟨_, c, hc⟩
            · omega
            · cases j' with
              | zero =>
                exfalso
                simp at hc
              | succ m =>
                refine ⟨m + 1, by omega, ⟨s, by simpa using hs⟩,
                  Or.inr ⟨by omega, c, ?_⟩⟩
                have hm : m + 1 + 1 - 1 = m + 1 := by omega
                rw [hm] at hc
                have hm2 : m + 1 - 1 = m := by omega
                rw [hm2]
                simpa using hc

/-- Top-level characterization: a position is emitted exactly when it holds
a symbol and the position right before it holds a chunk. -/
theorem emittedAt_iff (l : List DocumentPointer) (i : Nat) :
    emittedAt l i ↔
      ((∃ s, l[i]? = some (DocumentPointer.symbol s)) ∧
        (1 ≤ i ∧ ∃ c, l[i - 1]? = some (DocumentPointer.chunk c))) := by
  unfold emittedAt
  rw [scanIdx_mem]
  constructor
  · rintro ⟨j, hij, hsym, hdisj⟩
    have hji : i = j := by omega
    subst hji
    rcases hdisj with ⟨_, hfalse⟩ | h
    · cases hfalse
    · exact ⟨hsym, h⟩
  · rintro ⟨hsym, h1, c, hc⟩
    exact ⟨i, by omega, hsym, Or.inr ⟨h1, c, hc⟩⟩

/-- The faithful scan is the instrumented scan with the positions erased. -/
theorem mergeScan_eq_scanIdx : ∀ (l : List DocumentPointer) (b : Bool) (n : Nat),
    mergeScan b l = (scanIdx b n l).map Prod.snd := by
  intro l
  induction l with
  | nil => intro b n; rfl
  | cons x rest ihl =>
    intro b n
    cases x with
    | chunk c =>
      rw [mergeScan_cons_chunk, scanIdx_cons_chunk]
      exact ihl true (n + 1)
    | symbol s =>
      cases b with
      | true =>
        rw [mergeScan_cons_symbol_true, scanIdx_cons_symbol_true, List.map_cons]
        rw [ihl false (n + 1)]
      | false =>
        rw [mergeScan_cons_symbol_false, scanIdx_cons_symbol_false]
        exact ihl false (n + 1)

/-- Between a chunk position and a later symbol position with no emitted
symbol strictly between them, the position right before the symbol holds a
chunk. -/
theorem prev_chunk_of_no_emitted (l : List DocumentPointer) (i : Nat)
    (hsym : ∃ s, l[i]? = some (DocumentPointer.symbol s)) :
    ∀ d j c, j < i → i - j - 1 = d → l[j]? = some (DocumentPointer.chunk c) →
      (∀ k, j < k → k < i → ¬ emittedAt l k) →
      ∃ c', l[i - 1]? = some (DocumentPointer.chunk c') := by
  intro d
  induction d with
  | zero =>
    intro j c hji hd hcj _
    refine ⟨c, ?_⟩
    rw [show i - 1 = j from by omega]
    exact hcj
  | succ d ihd =>
    intro j c hji hd hcj hno
    have hj1 : j + 1 < i := by omega
    have hlen : i < l.length := by
      obtain ⟨s, hs⟩ := hsym
      exact (List.getElem?_eq_some.mp hs).1
    have hx : l[j + 1]? = some l[j + 1] := List.getElem?_eq_getElem (by omega)
    cases hxv : l[j + 1] with
    | chunk c' =>
      rw [hxv] at hx
      exact ihd (j + 1) c' hj1 (by omega) hx (fun k h1 h2 => hno k (by omega) h2)
    | symbol s' =>
      exfalso
      rw [hxv] at hx
      apply hno (j + 1) (by omega) hj1
      rw [emittedAt_iff]
      exact ⟨⟨s', hx⟩, by omega, ⟨c, by simpa using hcj⟩⟩

/-- Claim C3: the faithful single-pass scan equals the instrumented one
with positions erased; within one file's merged, sorted group a symbol is
emitted exactly when some chunk sits at an earlier position (hence at a
start line at most the symbol's) with no other emitted symbol between
them; and for the file with one chunk hit at line 40 and document symbols
at lines 10, 50 and 80, the scan emits exactly the symbol at line 50. -/
theorem claim_C3_merge_law :
    (∀ (l : List DocumentPointer) (b : Bool),
      mergeScan b l = (scanIdx b 0 l).map Prod.snd) ∧
    (∀ (chunks : List ChunkId) (symbols : List SymbolInfo) (i : Nat) (s : SymbolInfo),
      (mergeGroup chunks symbols)[i]? = some (DocumentPointer.symbol s) →
      (emittedAt (mergeGroup chunks symbols) i ↔
        ∃ (j : Nat) (c : ChunkId),
          (mergeGroup chunks symbols)[j]? = some (DocumentPointer.chunk c) ∧
          j < i ∧ c.start_line ≤ s.location.range.start.line ∧
          ∀ k, j < k → k < i → ¬ emittedAt (mergeGroup chunks symbols) k)) ∧
    mergeScan false (mergeGroup [exChunk40] [exSym 10, exSym 50, exSym 80])
      = [exSym 50] := by
  refine ⟨fun l b => mergeScan_eq_scanIdx l b 0, ?_, by decide⟩
  intro chunks symbols i s hi
  constructor
  · intro hem
    obtain ⟨_, h1i, c, hc⟩ := (emittedAt_iff _ i).mp hem
    refine ⟨i - 1, c, hc, by omega, ?_, by intro k h1 h2; omega⟩
    have hle := mergeGroup_le_of_lt chunks symbols (i - 1) i
      (DocumentPointer.chunk c) (DocumentPointer.symbol s) hc hi (by omega)
    simpa [DocumentPointer.startLine] using hle
  · rintro ⟨j, c, hcj, hji, _, hno⟩
    obtain ⟨c', hc'⟩ := prev_chunk_of_no_emitted (mergeGroup chunks symbols) i
      ⟨s, hi⟩ (i - j - 1) j c hji rfl hcj hno
    exact (emittedAt_iff _ i).mpr ⟨⟨s, hi⟩, by omega, c', hc'⟩

/-! ## The indexer loop: closed form and upsert idempotence (claim C7) -/

/-- Membership test distributes over list append. -/
theorem contains_append_eq (l₁ l₂ : List String) (a : String) :
    (l₁ ++ l₂).contains a = (l₁.contains a || l₂.contains a) := by
  induction l₁ with
  | nil => simp
  | cons x xs ihx => simp [List.contains_cons, ihx, Bool.or_assoc]

/-- Filtering a flushed table by a later deletion set merges the two
deletion sets on the old rows. -/
theorem filter_del_append (table recs : List ChunkRecord) (ids₁ ids₂ : List String) :
    ((table.filter (fun r => !(ids₁.contains r.id))) ++ recs).filter
        (fun r => !(ids₂.contains r.id)) =
      table.filter (fun r => !((ids₁ ++ ids₂).contains r.id)) ++
        recs.filter (fun r => !(ids₂.contains r.id)) := by
  rw [List.filter_append, List.filter_filter]
  congr 1
  apply List.filter_congr
  intro r _
  rw [contains_append_eq]
  cases h1 : ids₁.contains r.id <;> cases h2 : ids₂.contains r.id <;> rfl

/-- Closed form of the indexer loop: starting from any table, the loop
deletes the rows whose id is in idxDel and appends the idxApp records, the
final pending batch being idxFinal.  Neither component depends on the
starting table. -/
theorem index_run_closed (cfg : SemanticConfig) (embed : List String → List Int) :
    ∀ (msgs : List (Option TextChunk)) (batch : List TextChunk) (table : List ChunkRecord),
      index_run cfg embed msgs batch table =
        (idxFinal cfg msgs batch,
          table.filter (fun r => !((idxDel cfg msgs batch).contains r.id)) ++
            idxApp cfg embed msgs batch) := by
  intro msgs
  induction msgs with
  | nil =>
    intro batch table
    simp [index_run, idxFinal, idxDel, idxApp]
  | cons msg rest ih =>
    intro batch table
    cases msg with
    | some c =>
      by_cases hf : flushCond cfg (batch ++ [c]) (some c) = true
      · simp only [index_run, idxFinal, idxDel, idxApp, hf, if_true]
        rw [ih]
        unfold flushBatch
        rw [filter_del_append, List.append_assoc]
      · simp only [index_run, idxFinal, idxDel, idxApp, hf, if_false, Bool.false_eq_true]
        rw [ih]
    | none =>
      by_cases hf : flushCond cfg batch none = true
      · simp only [index_run, idxFinal, idxDel, idxApp, hf, if_true]
        rw [ih]
        unfold flushBatch
        rw [filter_del_append, List.append_assoc]
      · simp only [index_run, idxFinal, idxDel, idxApp, hf, if_false, Bool.false_eq_true]
        rw [ih]

/-- Every record the indexer appends for chunks of one file carries that
file's path. -/
theorem idxApp_paths (cfg : SemanticConfig) (embed : List String → List Int) (p : String) :
    ∀ (msgs : List (Option TextChunk)) (batch : List TextChunk),
      (∀ c, some c ∈ msgs → c.path = p) → (∀ c ∈ batch, c.path = p) →
      ∀ r ∈ idxApp cfg embed msgs batch, r.path = p := by
  intro msgs
  induction msgs with
  | nil =>
    intro batch _ _ r hr
    simp [idxApp] at hr
  | cons msg rest ih =>
    intro batch hm hb r hr
    have hm' : ∀ c, some c ∈ rest → c.path = p :=
      fun c hc => hm c (List.mem_cons_of_mem _ hc)
    cases msg with
    | some c0 =>
      have hb' : ∀ c ∈ batch ++ [c0], c.path = p := by
        intro c hc
        rcases List.mem_append.mp hc with h | h
        · exact hb c h
        · have h' : c = c0 := by simpa using h
          rw [h']
          exact hm c0 (List.mem_cons_self _ _)
      by_cases hf : flushCond cfg (batch ++ [c0]) (some c0) = true
      · simp only [idxApp, hf, if_true] at hr
        rcases List.mem_append.mp hr with h | h
        · obtain ⟨hmem, _⟩ := List.mem_filter.mp h
          obtain ⟨c1, hc1, hc1eq⟩ := List.mem_map.mp hmem
          subst hc1eq
          exact hb' c1 hc1
        · exact ih [] hm' (by simp) r h
      · simp only [idxApp, hf, if_false, Bool.false_eq_true] at hr
        exact ih (batch ++ [c0]) hm' hb' r hr
    | none =>
      by_cases hf : flushCond cfg batch none = true
      · simp only [idxApp, hf, if_true] at hr
        rcases List.mem_append.mp hr with h | h
        · obtain ⟨hmem, _⟩ := List.mem_filter.mp h
          obtain ⟨c1, hc1, hc1eq⟩ := List.mem_map.mp hmem
          subst hc1eq
          exact hb c1 hc1
        · exact ih [] hm' (by simp) r h
      · simp only [idxApp, hf, if_false, Bool.false_eq_true] at hr
        exact ih batch hm' hb r hr

/-- Every chunk the chunker emits for one file carries that file's path. -/
theorem chunkFileAux_path (cfg : SemanticConfig) (p : String) :
    ∀ (lines : List String) (cur : TextChunk), cur.path = p →
      ∀ c, some c ∈ chunkFileAux cfg cur lines → c.path = p := by
  intro lines
  induction lines with
  | nil =>
    intro cur hcur c hc
    by_cases hemp : cur.is_empty = true
    · simp [chunkFileAux, hemp] at hc
    · simp [chunkFileAux, hemp] at hc
      subst hc
      exact hcur
  | cons l rest ih =>
    intro cur hcur c hc
    by_cases hful : (cur.push_line l).is_full cfg = true
    · simp only [chunkFileAux, hful, if_true, List.mem_cons] at hc
      rcases hc with h | h
      · have h' : c = cur.push_line l := Option.some.inj h
        subst h'
        exact hcur
      · exact ih ((cur.push_line l).next_chunk cfg) hcur c h
    · simp only [chunkFileAux, hful, if_false, Bool.false_eq_true] at hc
      exact ih (cur.push_line l) hcur c hc

/-- Claim C7: processing the same file contents twice yields exactly the
same table as processing them once — the chunker's per-path delete clears
the file's previous rows and each flush's delete-then-append re-creates
identical records (the embedder being a function of the chunk text), so at
most one row per ChunkId remains and reprocessing is idempotent. -/
theorem claim_C7_upsert_idempotent (cfg : SemanticConfig)
    (embed : List String → List Int) (table : List ChunkRecord)
    (path : String) (lines : List String) :
    processFileEvent cfg embed (processFileEvent cfg embed table path lines) path lines =
      processFileEvent cfg embed table path lines := by
  have hpaths : ∀ c, some c ∈ process_file cfg path lines → c.path = path :=
    chunkFileAux_path cfg path lines (TextChunk.new cfg path 0) rfl
  have hA : ∀ r ∈ idxApp cfg embed (process_file cfg path lines) [], r.path = path :=
    idxApp_paths cfg embed path (process_file cfg path lines) [] hpaths (by simp)
  have hAnil : (idxApp cfg embed (process_file cfg path lines) []).filter
      (fun r => !(r.path == path)) = [] := by
    apply List.filter_eq_nil_iff.mpr
    intro r hr
    rw [hA r hr]
    simp
  have hdel : ∀ (t : List ChunkRecord), (delete_by_path t path false).1 =
      t.filter (fun r => !(r.path == path)) := by
    intro t
    simp [delete_by_path]
  simp only [processFileEvent, hdel, index_run_closed cfg embed]
  rw [List.filter_append, hAnil, List.append_nil]
  congr 1
  rw [List.filter_filter, List.filter_filter, List.filter_filter, List.filter_filter]
  apply List.filter_congr
  intro r _
  cases hF : (!((idxDel cfg (process_file cfg path lines) []).contains r.id)) <;>
    cases hP : (!(r.path == path)) <;> simp [hF, hP]

/-- Claim C8, witness: the concrete ruleset matches the concrete symbol
carrying code, and the conversion hypothesis holds for its uri. -/
theorem claim_C8_witness :
    rulesetEx.matches symWithCodeEx = Except.ok true := by
  have h := claim_C8_ruleset_matches rulesetEx symWithCodeEx "/f.rs" (by decide)
  exact h.1.mpr
    ⟨by decide, by decide,
      ⟨{ pattern := "**/*.rs", is_match := fun p => p == "/f.rs" }, by
        simp [rulesetEx], by decide⟩,
      "fn main", rfl, by decide⟩

end Semantrix
